import Mathlib

/-!
Shallow embedding of the decision-and-transformation core of the
Advanced-Subtitle-Retimer repository (src/lib/subtitle_extraction.py,
src/lib/subtitle_cleaning.py), together with theorems settling the frozen
claims about it.

Conventions of the embedding:
* Python strings are `List Char`; `String` is used for values that are only
  compared for equality (style tags, codec names).
* Fallible Python code is `Except PyError _`; each `PyError` constructor
  names the Python exception class raised by the corresponding source line.
* Console interaction (the Decision Source) is passed in explicitly: a
  `List Int` of chosen indices for index prompts, a `Bool` per category for
  the confirmation prompts (`true` models any answer other than `n`), and a
  raw input string for the style keep-list prompt.
* Python `set` iteration order is implementation defined; the embedding
  fixes it to first-insertion order (`dedupStreams`).
-/

namespace ASR

/-- Python exception classes raised by the embedded code paths. -/
inductive PyError where
  | valueError (msg : String)
  | indexError
  | eofError
  | fileNotFoundError
deriving DecidableEq, Repr

deriving instance DecidableEq for Except

/-- Python (unicode) whitespace, as matched by `str.strip`, `str.split` and
the regex class under `re.sub`. -/
def isPySpace (c : Char) : Bool :=
  c = ' ' || c = '\t' || c = '\n' || c = '\r' || c = '\x0b' || c = '\x0c' ||
  c = '\u0085' || c = '\u00a0' || c = '\u1680' ||
  ('\u2000' ≤ c && c ≤ '\u200a') ||
  c = '\u2028' || c = '\u2029' || c = '\u202f' || c = '\u205f' || c = '\u3000'

/-- Python `str.strip()` on a list of characters. -/
def pyStrip (l : List Char) : List Char :=
  ((l.dropWhile isPySpace).reverse.dropWhile isPySpace).reverse

/-- Auxiliary for `pySplit`: accumulates the current (reversed) token. -/
def pySplitAux (cur : List Char) : List Char → List (List Char)
  | [] => if cur.isEmpty then [] else [cur.reverse]
  | c :: rest =>
    if isPySpace c then
      if cur.isEmpty then pySplitAux [] rest else cur.reverse :: pySplitAux [] rest
    else pySplitAux (c :: cur) rest

/-- Python `str.split()` (split on whitespace runs, dropping empty parts). -/
def pySplit (l : List Char) : List (List Char) := pySplitAux [] l

/-- Valid continuation of a Python decimal digit sequence: single
underscores are allowed between digits. -/
def pyDigitsRest : List Char → Bool
  | [] => true
  | '_' :: c :: rest => c.isDigit && pyDigitsRest rest
  | c :: rest => c.isDigit && pyDigitsRest rest

/-- Valid Python decimal digit sequence (nonempty, underscores only between
digits). -/
def pyDigitsOK : List Char → Bool
  | [] => false
  | c :: rest => c.isDigit && pyDigitsRest rest

/-- Numeric value of a digit sequence, ignoring underscores. -/
def digitsVal (l : List Char) : Nat :=
  l.foldl (fun a c => if c = '_' then a else a * 10 + (c.toNat - '0'.toNat)) 0

/-- Python `int(token)` for a whitespace-free token: optional sign followed
by ASCII decimal digits (non-ASCII digit forms are outside the model);
`none` models the `ValueError` raised on anything else. -/
def pyInt (t : List Char) : Option Int :=
  match t with
  | '+' :: rest => if pyDigitsOK rest then some (digitsVal rest) else none
  | '-' :: rest => if pyDigitsOK rest then some (-(digitsVal rest : Int)) else none
  | l => if pyDigitsOK l then some (digitsVal l) else none

/-- Python list indexing `l[i]`: non-negative indices from the front,
negative indices from the end; `none` models the `IndexError` raised when
the index is out of range. -/
def pyGet {α : Type} (l : List α) (i : Int) : Option α :=
  if 0 ≤ i then
    if i < (l.length : Int) then l[i.toNat]? else none
  else
    if -(l.length : Int) ≤ i then l[(i + l.length).toNat]? else none

/-- Effectful left-to-right map: the embedding of a Python list
comprehension over a fallible expression (the first exception aborts). -/
def mapE {α β : Type} (f : α → Except PyError β) : List α → Except PyError (List β)
  | [] => .ok []
  | x :: xs =>
    match f x with
    | .error e => .error e
    | .ok y =>
      match mapE f xs with
      | .error e => .error e
      | .ok ys => .ok (y :: ys)

/-- Bool test that `t` is a prefix of `s`. -/
def isPre : List Char → List Char → Bool
  | [], _ => true
  | _ :: _, [] => false
  | a :: as, b :: bs => a = b && isPre as bs

/-- Python substring test `t in s`. -/
def containsSub (t : List Char) : List Char → Bool
  | [] => isPre t []
  | c :: rest => isPre t (c :: rest) || containsSub t rest

/-! ## Stream Catalog & Selector (src/lib/subtitle_extraction.py) -/

/-- One raw subtitle-stream record as reported by ffprobe: the track
`index`, the `codec_name`, and the optional `tags.title` / `tags.language`
entries. -/
structure RawStream where
  index : Int
  codec_name : String
  title : Option String
  language : Option String
deriving DecidableEq, Repr

/-- A deduplicated stream descriptor (dataclass `SubtitleStream`):
equality is structural over all three fields. -/
structure SubtitleStream where
  index : Int
  name : String
  codec : String
deriving DecidableEq, Repr

/-- `SubtitleStream.from_ffprobe_stream`: the display name is the stripped
title, else the stripped language tag, else `"unknown"` (Python `or`
chain). -/
def SubtitleStream.from_ffprobe_stream (r : RawStream) : SubtitleStream :=
  let t : List Char := pyStrip (r.title.getD "").data
  let l : List Char := pyStrip (r.language.getD "").data
  { index := r.index
    name := if ¬t.isEmpty then ⟨t⟩ else if ¬l.isEmpty then ⟨l⟩ else "unknown"
    codec := r.codec_name }

/-- Auxiliary for `dedupStreams`, keeping the first occurrence of each
descriptor. -/
def dedupAux (seen : List SubtitleStream) : List SubtitleStream → List SubtitleStream
  | [] => []
  | s :: rest => if s ∈ seen then dedupAux seen rest else s :: dedupAux (s :: seen) rest

/-- `get_unique_streams` followed by `list(...)`: deduplication of the
mapped descriptors.  Python iterates a `set` in unspecified order; the
embedding fixes first-insertion order. -/
def dedupStreams (l : List SubtitleStream) : List SubtitleStream := dedupAux [] l

/-- The listing printed by `prompt_stream_selection`, line
`[idx] Stream <track>: <name> (<codec>)` per descriptor. -/
def streamListing (streams : List SubtitleStream) : List String :=
  ((List.range streams.length).zip streams).map
    (fun p => "[" ++ toString p.1 ++ "] Stream " ++ toString p.2.index ++ ": " ++
      p.2.name ++ " (" ++ p.2.codec ++ ")")

/-- `prompt_stream_selection`: a single descriptor is returned without
consuming input; otherwise one chosen index is consumed from the Decision
Source and used to index the descriptor list (Python indexing, so an
out-of-range choice is an `IndexError`; exhausted input is `EOFError`). -/
def prompt_stream_selection (streams : List SubtitleStream) (choices : List Int) :
    Except PyError (SubtitleStream × List Int) :=
  if streams.length == 1 then
    match streams with
    | s :: _ => .ok (s, choices)
    | [] => .error .indexError
  else
    match choices with
    | [] => .error .eofError
    | c :: cs =>
      match pyGet streams c with
      | some s => .ok (s, cs)
      | none => .error .indexError

/-- Heterogeneous branch of `get_subtitle_stream_indices`: one independent
selection per file, threading the remaining Decision Source input. -/
def selectPerFile (files : List (List RawStream)) (choices : List Int) :
    Except PyError (List Int × List String × List Int) :=
  match files with
  | [] => .ok ([], [], choices)
  | fs :: rest =>
    match prompt_stream_selection (dedupStreams (fs.map SubtitleStream.from_ffprobe_stream)) choices with
    | .error e => .error e
    | .ok (sel, choices') =>
      match selectPerFile rest choices' with
      | .error e => .error e
      | .ok (idxs, cods, rem) => .ok (sel.index :: idxs, sel.codec :: cods, rem)

/-- `get_subtitle_stream_indices`: empty batch raises
`ValueError("No subtitle streams found")`; all-singleton batches are
resolved without interaction; equal candidate counts broadcast one
selection over the first file's deduplicated descriptors; otherwise each
file is selected independently. -/
def get_subtitle_stream_indices (alls : List (List RawStream)) (choices : List Int) :
    Except PyError (List Int × List String) :=
  match alls with
  | [] => .error (.valueError "No subtitle streams found")
  | first :: rest =>
    if (first :: rest).all (fun fs => fs.length == 1) then
      match mapE (fun fs =>
          match fs with
          | s :: _ => Except.ok (s.index, s.codec_name)
          | [] => Except.error PyError.indexError) (first :: rest) with
      | .error e => .error e
      | .ok pairs => .ok (pairs.map Prod.fst, pairs.map Prod.snd)
    else if (first :: rest).all (fun fs => fs.length == first.length) then
      match prompt_stream_selection
          (dedupStreams (first.map SubtitleStream.from_ffprobe_stream)) choices with
      | .error e => .error e
      | .ok p =>
        .ok (List.replicate (first :: rest).length p.1.index,
             List.replicate (first :: rest).length p.1.codec)
    else
      match selectPerFile (first :: rest) choices with
      | .error e => .error e
      | .ok r => .ok (r.1, r.2.1)

/-! ## Cleaning Rule Engine (src/lib/subtitle_cleaning.py)

The regex patterns are fixed, so each `re.sub`/`re.search` call is embedded
as a dedicated function implementing Python's leftmost, non-overlapping
match semantics for that one pattern (`.` does not match a newline; `+?` is
lazy, `+` greedy).
-/

/-- One subtitle line of the Document Model: text and style tag. -/
structure Line where
  text : List Char
  style : String
deriving DecidableEq, Repr

/-- `SYMBOLS_TO_DELETE`, in source insertion order. -/
def SYMBOLS_TO_DELETE : List Char := ['♪', '～', '―', '~']

/-- `HEARING_IMPAIRED_REGEX`. -/
def HEARING_IMPAIRED_REGEX : String := "（.+?）"

/-- `FURIGANA_REGEX`. -/
def FURIGANA_REGEX : String := "\\([ぁ-ゞ]+?\\)"

/-- `INITIAL_BRACKETS`. -/
def INITIAL_BRACKETS : String := "^\\(.+\\)"

/-- The display pattern for the symbol category,
`"|".join(SYMBOLS_TO_DELETE)` in insertion order. -/
def SYMBOLS_PATTERN : String := "♪|～|―|~"

/-- `TAGS_TO_IGNORE_AUTO`. -/
def TAGS_TO_IGNORE_AUTO : List String :=
  ["Signs", "Caption", "Song", "ED", "OP", "Opening", "Ending", "Karaoke"]

/-- Single non-overlapping two-character replacement, the embedding of
Python `str.replace(ab, r)` for a two-character pattern and one-character
replacement. -/
def replace2 (a b r : Char) : List Char → List Char
  | x :: y :: rest =>
    if x = a ∧ y = b then r :: replace2 a b r rest
    else x :: replace2 a b r (y :: rest)
  | l => l

/-- Line-continuation normalization (line 55):
`text.replace("\\N", "\n").replace("\\n", " ")` — hard break to newline,
soft break to space. -/
def normalizeBreaks (t : List Char) : List Char :=
  replace2 '\\' 'n' ' ' (replace2 '\\' 'N' '\n' t)

/-- Auxiliary for `collapseWS`: the flag records whether the scan is inside
a whitespace run whose single replacement space was already emitted. -/
def collapseAux : Bool → List Char → List Char
  | _, [] => []
  | inRun, c :: rest =>
    if isPySpace c then
      if inRun then collapseAux true rest else ' ' :: collapseAux true rest
    else c :: collapseAux false rest

/-- `re.sub(r"\s+", " ", text)`: every maximal whitespace run becomes one
space. -/
def collapseWS (t : List Char) : List Char := collapseAux false t

/-- Whether the two-character sequence `a b` occurs (adjacently) in the
list; used to reason about the continuation markers `\N` and `\n`. -/
def hasPair (a b : Char) : List Char → Bool
  | x :: y :: rest => (x = a && y = b) || hasPair a b (y :: rest)
  | _ => false

/-- After `（`, the lazy scan of `（.+?）`: find the nearest `）` with at
least the one already-consumed character before it and no newline in
between; returns the rest of the input after the closing `）`. -/
def scanToClose : List Char → Option (List Char)
  | [] => none
  | c :: rest =>
    if c = '）' then some rest
    else if c = '\n' then none
    else scanToClose rest

/-- Match of `（.+?）` whose `（` was just consumed: one mandatory
non-newline character, then the nearest closing `）`. -/
def matchHIAt : List Char → Option (List Char)
  | [] => none
  | c :: rest => if c = '\n' then none else scanToClose rest

/-- Fueled scan for `re.sub(HEARING_IMPAIRED_REGEX, "", text)`: leftmost
matches removed, scanning resumes after each match.  The fuel only bounds
recursion; every match consumes at least two characters, so fuel equal to
the input length never runs out. -/
def subHIAux : Nat → List Char → List Char
  | 0, s => s
  | _ + 1, [] => []
  | fuel + 1, c :: rest =>
    if c = '（' then
      match matchHIAt rest with
      | some rest' => subHIAux fuel rest'
      | none => c :: subHIAux fuel rest
    else c :: subHIAux fuel rest

/-- `re.sub(HEARING_IMPAIRED_REGEX, "", text)`. -/
def subHI (t : List Char) : List Char := subHIAux t.length t

/-- `re.search(HEARING_IMPAIRED_REGEX, text)` as a Bool. -/
def searchHI : List Char → Bool
  | [] => false
  | c :: rest => (c = '（' && (matchHIAt rest).isSome) || searchHI rest

/-- Hiragana range `[ぁ-ゞ]` by code point. -/
def isHira (c : Char) : Bool := 'ぁ' ≤ c && c ≤ 'ゞ'

/-- After `(`, the lazy scan of `[ぁ-ゞ]+?\)`: hiragana until the closing
ASCII parenthesis; any other character kills the match. -/
def scanHira : List Char → Option (List Char)
  | [] => none
  | c :: rest =>
    if c = ')' then some rest
    else if isHira c then scanHira rest
    else none

/-- Match of `\([ぁ-ゞ]+?\)` whose `(` was just consumed: one mandatory
hiragana, then hiragana up to the closing parenthesis. -/
def matchFuriAt : List Char → Option (List Char)
  | [] => none
  | c :: rest => if isHira c then scanHira rest else none

/-- Fueled scan for `re.sub(FURIGANA_REGEX, "", text)` (leftmost matches
removed; fuel as in `subHIAux`). -/
def subFuriAux : Nat → List Char → List Char
  | 0, s => s
  | _ + 1, [] => []
  | fuel + 1, c :: rest =>
    if c = '(' then
      match matchFuriAt rest with
      | some rest' => subFuriAux fuel rest'
      | none => c :: subFuriAux fuel rest
    else c :: subFuriAux fuel rest

/-- `re.sub(FURIGANA_REGEX, "", text)`. -/
def subFuri (t : List Char) : List Char := subFuriAux t.length t

/-- `re.search(FURIGANA_REGEX, text)` as a Bool. -/
def searchFuri : List Char → Bool
  | [] => false
  | c :: rest => (c = '(' && (matchFuriAt rest).isSome) || searchFuri rest

/-- Index (into the characters after the opening parenthesis) of the last
`)` reachable by the greedy `.+` of `^\(.+\)`: the latest `)` strictly
after at least one consumed character and before the first newline. -/
def lastCloseIdx : List Char → Nat → Option Nat → Option Nat
  | [], _, acc => acc
  | c :: rest, i, acc =>
    if c = '\n' then acc
    else lastCloseIdx rest (i + 1) (if c = ')' ∧ 1 ≤ i then some i else acc)

/-- `re.sub(INITIAL_BRACKETS, "", text)`: the anchored `^\(.+\)` matches at
most once, at the start of the string. -/
def subInitial (s : List Char) : List Char :=
  match s with
  | '(' :: rest =>
    match lastCloseIdx rest 0 none with
    | some j => rest.drop (j + 1)
    | none => s
  | _ => s

/-- `re.search(INITIAL_BRACKETS, text)` as a Bool. -/
def searchInitial (s : List Char) : Bool :=
  match s with
  | '(' :: rest => (lastCloseIdx rest 0 none).isSome
  | _ => false

/-- `re.sub("|".join(map(re.escape, SYMBOLS_TO_DELETE)), "", text)`:
alternation of single characters, so a plain filter. -/
def subSymbols (t : List Char) : List Char :=
  t.filter (fun c => !SYMBOLS_TO_DELETE.contains c)

/-- The `clear_flags` dict of `clean_up_japanese_subs` (fixed key set). -/
structure ClearFlags where
  hearing_impaired : Bool
  special_symbols : Bool
  furigana : Bool
  initial_brackets : Bool
deriving DecidableEq, Repr

/-- Lines 55-64 of `process_subtitle_line`: continuation normalization,
then the four category removals in fixed order, each gated by its flag. -/
def applyRemovals (flags : ClearFlags) (t : List Char) : List Char :=
  let t := normalizeBreaks t
  let t := if flags.hearing_impaired then subHI t else t
  let t := if flags.special_symbols then subSymbols t else t
  let t := if flags.furigana then subFuri t else t
  if flags.initial_brackets then subInitial t else t

/-- `process_subtitle_line`: category removals followed by the final
whitespace collapse (line 66). -/
def process_subtitle_line (flags : ClearFlags) (t : List Char) : List Char :=
  collapseWS (applyRemovals flags t)

/-- `process_subtitle_line` lifted to a whole line (the style tag is
untouched). -/
def processLine (flags : ClearFlags) (l : Line) : Line :=
  ⟨process_subtitle_line flags l.text, l.style⟩

/-- The per-category `(text, pattern)` sample lists of
`collect_special_texts` / `clean_up_japanese_subs`. -/
structure CatMatches where
  hearing_impaired : List (List Char × String)
  special_symbols : List (List Char × String)
  furigana : List (List Char × String)
  initial_brackets : List (List Char × String)
deriving DecidableEq, Repr

/-- One line's contribution to the sample lists (lines 79-88): checks run
on the continuation-normalized text, in source order (symbols, hearing
impaired, furigana, initial brackets). -/
def collectLine (m : CatMatches) (l : Line) : CatMatches :=
  let t := normalizeBreaks l.text
  let m := if t.any (fun c => SYMBOLS_TO_DELETE.contains c) then
    { m with special_symbols := m.special_symbols ++ [(t, SYMBOLS_PATTERN)] } else m
  let m := if searchHI t then
    { m with hearing_impaired := m.hearing_impaired ++ [(t, HEARING_IMPAIRED_REGEX)] } else m
  let m := if searchFuri t then
    { m with furigana := m.furigana ++ [(t, FURIGANA_REGEX)] } else m
  if searchInitial t then
    { m with initial_brackets := m.initial_brackets ++ [(t, INITIAL_BRACKETS)] } else m

/-- `collect_special_texts` over one document. -/
def collect_special_texts (doc : List Line) : CatMatches :=
  doc.foldl collectLine ⟨[], [], [], []⟩

/-- Concatenation of two sample collections (the `extend` loop of lines
109-110). -/
def mergeCat (m1 m2 : CatMatches) : CatMatches :=
  ⟨m1.hearing_impaired ++ m2.hearing_impaired,
   m1.special_symbols ++ m2.special_symbols,
   m1.furigana ++ m2.furigana,
   m1.initial_brackets ++ m2.initial_brackets⟩

/-- Batch-wide sampling of `clean_up_japanese_subs` (lines 99-110). -/
def collectBatch (docs : List (List Line)) : CatMatches :=
  docs.foldl (fun acc d => mergeCat acc (collect_special_texts d)) ⟨[], [], [], []⟩

/-- `user_confirmation`: the first 10 matches are displayed; an empty
sample is an automatic `False`, otherwise the answer Bool models
`response != 'n'`. -/
def user_confirmation (ms : List (List Char × String)) (answer : Bool) : Bool :=
  let ms := ms.take 10
  if ms.isEmpty then false else answer

/-- The Decision Source's answers to the four category prompts (`true`
models any response other than `n`). -/
structure Answers where
  hearing_impaired : Bool
  special_symbols : Bool
  furigana : Bool
  initial_brackets : Bool
deriving DecidableEq, Repr

/-- The `clear_flags` dict computed at lines 113-122. -/
def engineFlags (docs : List (List Line)) (a : Answers) : ClearFlags :=
  let m := collectBatch docs
  ⟨user_confirmation m.hearing_impaired a.hearing_impaired,
   user_confirmation m.special_symbols a.special_symbols,
   user_confirmation m.furigana a.furigana,
   user_confirmation m.initial_brackets a.initial_brackets⟩

/-- The literal watermark substring of line 131. -/
def NETFLIX : List Char := "NETFLIX".data

/-- Modelled from the spec: `SSAFile.remove_miscellaneous_events` belongs
to the external Document Model collaborator (pysubs2), whose code is not
part of this repository.  Spec §4.2 step 5 describes it as "drop any
remaining structurally empty/miscellaneous entries"; the embedded Document
Model (spec §3) holds only dialogue lines with text and style, which are
not structurally empty/miscellaneous, so on it the operation removes
nothing. -/
def remove_miscellaneous_events (doc : List Line) : List Line := doc

/-- Lines 127-132 for one document: process every line, then keep exactly
the lines whose text is truthy (nonempty) and free of the `"NETFLIX"`
watermark, then drop miscellaneous entries. -/
def cleanDoc (flags : ClearFlags) (doc : List Line) : List Line :=
  remove_miscellaneous_events
    ((doc.map (processLine flags)).filter
      (fun l => !l.text.isEmpty && !containsSub NETFLIX l.text))

/-- `clean_up_japanese_subs` at the document level: batch-wide sampling,
one decision per category, then one uniform cleaning pass over every
document.  (File staging and the returned cleanup closure are modelled
separately by `stageCleanup`.) -/
def clean_up_japanese_subs (docs : List (List Line)) (a : Answers) : List (List Line) :=
  docs.map (cleanDoc (engineFlags docs a))

/-- Cleanliness of one line with respect to the four category patterns,
checked (as the source does) on the continuation-normalized text. -/
def lineClean (t : List Char) : Bool :=
  let n := normalizeBreaks t
  !(n.any (fun c => SYMBOLS_TO_DELETE.contains c)) && !searchHI n &&
    !searchFuri n && !searchInitial n

/-- A batch with no category match on any line of any document. -/
def docsClean (docs : List (List Line)) : Bool :=
  docs.all (fun d => d.all (fun l => lineClean l.text))

/-! ## Style Filter (src/lib/subtitle_cleaning.py, lines 143-211) -/

/-- `any(tag in line.style for tag in TAGS_TO_IGNORE_AUTO)`: substring
containment of an ignore-family tag in the style. -/
def containsIgnoreTag (style : String) : Bool :=
  TAGS_TO_IGNORE_AUTO.any (fun tag => containsSub tag.data style.data)

/-- Ordered-dict increment of a style counter (`styles_counts`): Python
dicts preserve insertion order and update counts in place. -/
def bumpStyle : List (String × Nat) → String → List (String × Nat)
  | [], st => [(st, 1)]
  | (s, c) :: rest, st =>
    if s = st then (s, c + 1) :: rest else (s, c) :: bumpStyle rest st

/-- Ordered-dict update of the per-style example texts (`styles_examples`,
at most 5 per style). -/
def addExample : List (String × List (List Char)) → String → List Char →
    List (String × List (List Char))
  | [], st, txt => [(st, [txt])]
  | (s, xs) :: rest, st, txt =>
    if s = st then (s, if xs.length < 5 then xs ++ [txt] else xs) :: rest
    else (s, xs) :: addExample rest st txt

/-- One line's contribution to the style statistics (lines 150-158): lines
whose style contains an ignore-family tag are skipped permanently. -/
def analyzeLine (acc : List (String × Nat) × List (String × List (List Char))) (l : Line) :
    List (String × Nat) × List (String × List (List Char)) :=
  if containsIgnoreTag l.style then acc
  else (bumpStyle acc.1 l.style, addExample acc.2 l.style l.text)

/-- Stable descending insertion by count: an element is inserted before the
first entry whose count is not larger, matching Python's stable
`sorted(..., key=count, reverse=True)`. -/
def insertByCountDesc (p : String × Nat) : List (String × Nat) → List (String × Nat)
  | [] => [p]
  | q :: rest => if p.2 < q.2 then q :: insertByCountDesc p rest else p :: q :: rest

/-- `sorted(styles_counts.items(), key=count, reverse=True)`. -/
def sortStylesDesc (l : List (String × Nat)) : List (String × Nat) :=
  l.foldr insertByCountDesc []

/-- `analyze_subtitle_styles` over a batch of documents: ranked
(style, count) list plus example texts. -/
def analyze_subtitle_styles (batch : List (List Line)) :
    List (String × Nat) × List (String × List (List Char)) :=
  let p := batch.foldl (fun acc doc => doc.foldl analyzeLine acc) ([], [])
  (sortStylesDesc p.1, p.2)

/-- `get_styles_to_keep`: empty (stripped) input keeps every ranked style;
otherwise each whitespace-separated token is parsed by `int` (`ValueError`
on failure) and used directly as a Python index into the ranked list
(`IndexError` when out of range). -/
def get_styles_to_keep (sorted_styles : List (String × Nat))
    (_styles_examples : List (String × List (List Char))) (user_input : List Char) :
    Except PyError (List String) :=
  let ui := pyStrip user_input
  if ui.isEmpty then .ok (sorted_styles.map Prod.fst)
  else
    match mapE (fun t =>
        match pyInt t with
        | some i => Except.ok i
        | none => Except.error (PyError.valueError "invalid literal for int")) (pySplit ui) with
    | .error e => .error e
    | .ok tag_indices =>
      mapE (fun i =>
        match pyGet sorted_styles i with
        | some p => Except.ok p.1
        | none => Except.error PyError.indexError) tag_indices

/-- Lines 194-196 of `clean_tags` for one document: keep exactly the lines
whose style is in the keep list, then drop miscellaneous entries. -/
def filterByStyles (keep : List String) (doc : List Line) : List Line :=
  remove_miscellaneous_events (doc.filter (fun l => keep.contains l.style))

/-! ## Temp Artifact Manager (tempfile.mkdtemp / shutil.rmtree) -/

/-- The filesystem, reduced to the set of existing staging directories
(each staging directory owns everything beneath it). -/
abbrev FS := List String

/-- `tempfile.mkdtemp`: creates the freshly named staging directory. -/
def mkdtemp (dir : String) (fs : FS) : FS := dir :: fs

/-- `shutil.rmtree(d)`: removes the directory and all residue beneath it;
raises `FileNotFoundError` when the path no longer exists (no
`ignore_errors`). -/
def rmtree (d : String) (fs : FS) : Except PyError FS :=
  if d ∈ fs then .ok (fs.filter (fun x => x ≠ d)) else .error .fileNotFoundError

/-- The cleanup closure `lambda: shutil.rmtree(temp_dir)` returned by each
staging stage (`extract_subtitles` line 133, `clean_up_japanese_subs`
line 140, `clean_tags` line 206). -/
def stageCleanup (temp_dir : String) (fs : FS) : Except PyError FS :=
  rmtree temp_dir fs

/-! ## Helper lemmas -/

theorem mapE_ok_length {α β : Type} (f : α → Except PyError β) (l : List α) (out : List β)
    (h : mapE f l = .ok out) : out.length = l.length := by
  induction l generalizing out with
  | nil =>
    simp only [mapE, Except.ok.injEq] at h
    subst h
    rfl
  | cons x xs ih =>
    simp only [mapE] at h
    cases hfx : f x with
    | error e => simp [hfx] at h
    | ok y =>
      simp only [hfx] at h
      cases hms : mapE f xs with
      | error e => simp [hms] at h
      | ok ys =>
        simp only [hms, Except.ok.injEq] at h
        subst h
        simp [ih ys hms]

theorem mapE_ok_mem {α β : Type} (f : α → Except PyError β) (l : List α) (out : List β)
    (h : mapE f l = .ok out) : ∀ y ∈ out, ∃ x ∈ l, f x = .ok y := by
  induction l generalizing out with
  | nil =>
    simp only [mapE, Except.ok.injEq] at h
    subst h
    simp
  | cons x xs ih =>
    simp only [mapE] at h
    cases hfx : f x with
    | error e => simp [hfx] at h
    | ok y =>
      simp only [hfx] at h
      cases hms : mapE f xs with
      | error e => simp [hms] at h
      | ok ys =>
        simp only [hms, Except.ok.injEq] at h
        subst h
        intro z hz
        rcases List.mem_cons.mp hz with hz | hz
        · exact ⟨x, by simp, hz ▸ hfx⟩
        · obtain ⟨w, hw, hfw⟩ := ih ys hms z hz
          exact ⟨w, by simp [hw], hfw⟩

theorem pyGet_mem {α : Type} (l : List α) (i : Int) (x : α) (h : pyGet l i = some x) :
    x ∈ l := by
  unfold pyGet at h
  split at h
  · split at h
    · exact List.getElem?_mem h
    · exact absurd h (by simp)
  · split at h
    · exact List.getElem?_mem h
    · exact absurd h (by simp)

theorem pyGet_nil {α : Type} (i : Int) : pyGet ([] : List α) i = none := by
  unfold pyGet
  split <;> split <;> simp_all

theorem selectPerFile_ok_length (files : List (List RawStream)) (choices : List Int)
    (idxs : List Int) (cods : List String) (rem : List Int)
    (h : selectPerFile files choices = .ok (idxs, cods, rem)) :
    idxs.length = files.length ∧ cods.length = files.length := by
  induction files generalizing choices idxs cods rem with
  | nil =>
    simp only [selectPerFile, Except.ok.injEq, Prod.mk.injEq] at h
    obtain ⟨h1, h2, -⟩ := h
    subst h1; subst h2
    simp
  | cons fs rest ih =>
    simp only [selectPerFile] at h
    cases hp : prompt_stream_selection (dedupStreams (fs.map SubtitleStream.from_ffprobe_stream)) choices with
    | error e => simp [hp] at h
    | ok p =>
      obtain ⟨sel, choices'⟩ := p
      simp only [hp] at h
      cases hs : selectPerFile rest choices' with
      | error e => simp [hs] at h
      | ok q =>
        obtain ⟨idxs', cods', rem'⟩ := q
        simp only [hs, Except.ok.injEq, Prod.mk.injEq] at h
        obtain ⟨h1, h2, -⟩ := h
        subst h1; subst h2
        obtain ⟨hl1, hl2⟩ := ih choices' idxs' cods' rem' hs
        simp [hl1, hl2]

theorem map_fix {α : Type} {l : List α} {f : α → α} (h : ∀ x ∈ l, f x = x) :
    l.map f = l := by
  induction l with
  | nil => rfl
  | cons x xs ih =>
    simp only [List.map_cons, h x (by simp)]
    rw [ih (fun y hy => h y (by simp [hy]))]

/-! ## Claims about the Stream Catalog & Selector -/

/-- C3: whenever `get_subtitle_stream_indices` returns — in the
uniform-trivial, uniform-multi or heterogeneous case — the returned index
list and codec list each have length equal to the number of input files,
hence are positionally aligned with them. -/
theorem claim_C3 (alls : List (List RawStream)) (choices : List Int)
    (idxs : List Int) (cods : List String)
    (h : get_subtitle_stream_indices alls choices = .ok (idxs, cods)) :
    idxs.length = alls.length ∧ cods.length = alls.length := by
  cases alls with
  | nil => simp [get_subtitle_stream_indices] at h
  | cons first rest =>
    simp only [get_subtitle_stream_indices] at h
    split at h
    · split at h
      · exact absurd h (by simp)
      · rename_i pairs hm
        simp only [Except.ok.injEq, Prod.mk.injEq] at h
        obtain ⟨h1, h2⟩ := h
        subst h1; subst h2
        have := mapE_ok_length _ _ _ hm
        simp [this]
    · split at h
      · split at h
        · exact absurd h (by simp)
        · rename_i p hp
          obtain ⟨sel, rem⟩ := p
          simp only [Except.ok.injEq, Prod.mk.injEq] at h
          obtain ⟨h1, h2⟩ := h
          subst h1; subst h2
          simp
      · split at h
        · exact absurd h (by simp)
        · rename_i q hq
          obtain ⟨idxs', cods', rem'⟩ := q
          simp only [Except.ok.injEq, Prod.mk.injEq] at h
          obtain ⟨h1, h2⟩ := h
          subst h1; subst h2
          exact selectPerFile_ok_length _ _ _ _ _ hq

/-- Witness for C3 at a concrete two-file uniform-trivial batch. -/
theorem claim_C3_witness :
    ([2, 0] : List Int).length =
      ([[⟨2, "ass", none, some "jpn"⟩], [⟨0, "srt", none, none⟩]] :
        List (List RawStream)).length ∧
    (["ass", "srt"] : List String).length =
      ([[⟨2, "ass", none, some "jpn"⟩], [⟨0, "srt", none, none⟩]] :
        List (List RawStream)).length :=
  claim_C3 [[⟨2, "ass", none, some "jpn"⟩], [⟨0, "srt", none, none⟩]] [] [2, 0]
    ["ass", "srt"] (by decide)

/-- C1: in the uniform-multi case (every file the same candidate count,
greater than one), the selector deduplicates the first file's descriptors,
presents them as the listing `[idx] Stream <track>: <name> (<codec>)`,
consumes one chosen index, and broadcasts the chosen descriptor's
(index, codec) to every file. -/
theorem claim_C1 (first : List RawStream) (rest : List (List RawStream))
    (c : Int) (cs : List Int) (sel : SubtitleStream)
    (hmulti : 1 < first.length)
    (huni : ∀ fs ∈ rest, fs.length = first.length)
    (hD : (dedupStreams (first.map SubtitleStream.from_ffprobe_stream)).length ≠ 1)
    (hsel : pyGet (dedupStreams (first.map SubtitleStream.from_ffprobe_stream)) c = some sel) :
    get_subtitle_stream_indices (first :: rest) (c :: cs) =
      .ok (List.replicate (first :: rest).length sel.index,
           List.replicate (first :: rest).length sel.codec) ∧
    streamListing (dedupStreams (first.map SubtitleStream.from_ffprobe_stream)) =
      ((List.range (dedupStreams (first.map SubtitleStream.from_ffprobe_stream)).length).zip
          (dedupStreams (first.map SubtitleStream.from_ffprobe_stream))).map
        (fun p => "[" ++ toString p.1 ++ "] Stream " ++ toString p.2.index ++ ": " ++
          p.2.name ++ " (" ++ p.2.codec ++ ")") := by
  refine ⟨?_, rfl⟩
  have hcond1 : ((first :: rest).all fun fs => fs.length == 1) = false := by
    have : (first.length == 1) = false := beq_eq_false_iff_ne.mpr (by omega)
    simp [List.all_cons, this]
  have hcond2 : ((first :: rest).all fun fs => fs.length == first.length) = true := by
    refine List.all_eq_true.mpr ?_
    intro fs hfs
    rcases List.mem_cons.mp hfs with hfs | hfs
    · simp [hfs]
    · simp [beq_iff_eq, huni fs hfs]
  have hlen : ((dedupStreams (first.map SubtitleStream.from_ffprobe_stream)).length == 1)
      = false := beq_eq_false_iff_ne.mpr hD
  simp only [get_subtitle_stream_indices, hcond1, hcond2, Bool.false_eq_true, if_false,
    if_true, prompt_stream_selection, hlen, hsel]

/-- Witness for C1 at the spec's instance: 3 files each exposing streams
(2, jpn, ass) and (3, eng, srt); chosen index 0 resolves every file to
(2, ass), and the presented listing is exactly the two formatted lines. -/
theorem claim_C1_witness :
    get_subtitle_stream_indices
        [[⟨2, "ass", none, some "jpn"⟩, ⟨3, "srt", none, some "eng"⟩],
         [⟨2, "ass", none, some "jpn"⟩, ⟨3, "srt", none, some "eng"⟩],
         [⟨2, "ass", none, some "jpn"⟩, ⟨3, "srt", none, some "eng"⟩]] [0] =
      .ok ([2, 2, 2], ["ass", "ass", "ass"]) ∧
    streamListing (dedupStreams
        ([⟨2, "ass", none, some "jpn"⟩, ⟨3, "srt", none, some "eng"⟩].map
          SubtitleStream.from_ffprobe_stream)) =
      ["[0] Stream 2: jpn (ass)", "[1] Stream 3: eng (srt)"] := by
  have h := claim_C1 [⟨2, "ass", none, some "jpn"⟩, ⟨3, "srt", none, some "eng"⟩]
    [[⟨2, "ass", none, some "jpn"⟩, ⟨3, "srt", none, some "eng"⟩],
     [⟨2, "ass", none, some "jpn"⟩, ⟨3, "srt", none, some "eng"⟩]]
    0 [] ⟨2, "jpn", "ass"⟩ (by decide) (by decide) (by decide) (by decide)
  exact ⟨h.1, by decide⟩

/-- C6 (amended): a batch with zero total candidate streams never returns
index/codec lists.  An empty batch raises the configuration
`ValueError("No subtitle streams found")`; a nonempty batch whose files all
have empty stream lists instead reaches the uniform branch, presents an
empty listing, and fails with an unhandled `EOFError`/`IndexError` from
selecting out of an empty descriptor list. -/
theorem claim_C6 (alls : List (List RawStream)) (choices : List Int)
    (hempty : alls.all (fun fs => fs.isEmpty) = true) :
    (alls = [] →
      get_subtitle_stream_indices alls choices =
        .error (.valueError "No subtitle streams found")) ∧
    ∃ e, get_subtitle_stream_indices alls choices = .error e := by
  cases alls with
  | nil => exact ⟨fun _ => rfl, ⟨.valueError "No subtitle streams found", rfl⟩⟩
  | cons first rest =>
    refine ⟨fun habs => absurd habs (by simp), ?_⟩
    have hf : first = [] := by
      have := List.all_eq_true.mp hempty first (by simp)
      simpa using this
    subst hf
    have hcond1 : (([] :: rest).all fun fs => fs.length == 1) = false := by
      simp [List.all_cons]
    have hcond2 : (([] :: rest).all fun fs => fs.length == ([] : List RawStream).length) = true := by
      refine List.all_eq_true.mpr ?_
      intro fs hfs
      rcases List.mem_cons.mp hfs with hfs | hfs
      · simp [hfs]
      · have := List.all_eq_true.mp hempty fs (by simp [hfs])
        simp only [List.isEmpty_iff] at this
        simp [this]
    simp only [get_subtitle_stream_indices, hcond1, hcond2, Bool.false_eq_true, if_false,
      if_true, List.map_nil]
    have hd : dedupStreams [] = [] := rfl
    rw [hd]
    simp only [prompt_stream_selection, List.length_nil]
    cases choices with
    | nil => exact ⟨.eofError, rfl⟩
    | cons c cs =>
      simp only [pyGet_nil]
      exact ⟨.indexError, by simp⟩

/-- Witness for C6 at a one-file batch with no candidate streams. -/
theorem claim_C6_witness :
    ∃ e, get_subtitle_stream_indices [([] : List RawStream)] [] = .error e :=
  (claim_C6 [[]] [] (by decide)).2

/-- Counterexample to C6 as stated: with two files whose stream lists are
both empty (zero total candidates) and any chosen index, the selector does
fail, but with an `IndexError` from indexing the empty presented list, not
with the configuration `ValueError` that the zero-candidate rule raises. -/
theorem claim_C6_counterexample :
    get_subtitle_stream_indices [[], []] [0] = .error .indexError ∧
    get_subtitle_stream_indices [[], []] [0] ≠
      .error (.valueError "No subtitle streams found") := by
  constructor
  · rfl
  · intro h
    rw [show get_subtitle_stream_indices [[], []] [0] = .error .indexError from rfl] at h
    simp at h

/-! ## Claims about the staging-area cleanup actions -/

/-- C2 (amended): the cleanup action returned by a staging stage removes
the staging directory completely on its first invocation (no residue), but
a second invocation raises `FileNotFoundError`, because `shutil.rmtree` is
called again on the now-missing path. -/
theorem claim_C2 (d : String) (fs : FS) (h : d ∈ fs) :
    stageCleanup d fs = .ok (fs.filter (fun x => x ≠ d)) ∧
    d ∉ fs.filter (fun x => x ≠ d) ∧
    stageCleanup d (fs.filter (fun x => x ≠ d)) = .error .fileNotFoundError := by
  have hnot : d ∉ fs.filter (fun x => x ≠ d) := by
    intro hmem
    have := List.of_mem_filter hmem
    simp at this
  refine ⟨by simp [stageCleanup, rmtree, h], hnot, by simp [stageCleanup, rmtree, hnot]⟩

/-- Witness for C2 at a concrete staging directory. -/
theorem claim_C2_witness :
    stageCleanup "cleaned_subtitles_w" ["cleaned_subtitles_w"] = .ok [] ∧
    "cleaned_subtitles_w" ∉ ([] : FS) ∧
    stageCleanup "cleaned_subtitles_w" [] = .error .fileNotFoundError :=
  claim_C2 "cleaned_subtitles_w" ["cleaned_subtitles_w"] (by simp)

/-- Counterexample to C2 as stated: invoking a freshly staged directory's
cleanup action twice raises `FileNotFoundError` on the second call, so the
double invocation is not error-free. -/
theorem claim_C2_counterexample :
    (stageCleanup "cleaned_subs_0" (mkdtemp "cleaned_subs_0" [])).bind
      (stageCleanup "cleaned_subs_0") = .error .fileNotFoundError := by decide

/-! ## Lemmas about the text transformations of the Cleaning Rule Engine -/

theorem hasPair_cons_false (a b x : Char) (l : List Char) :
    hasPair a b (x :: l) = false ↔
      ¬(x = a ∧ l.head? = some b) ∧ hasPair a b l = false := by
  cases l with
  | nil => simp [hasPair]
  | cons y rest =>
    simp only [hasPair, Bool.or_eq_false_iff, Bool.and_eq_false_iff,
      decide_eq_false_iff_not, List.head?_cons, Option.some.injEq]
    tauto

theorem hasPair_tail (a b x : Char) (l : List Char)
    (h : hasPair a b (x :: l) = false) : hasPair a b l = false :=
  ((hasPair_cons_false a b x l).mp h).2

theorem replace2_head (a b r : Char) (l : List Char) :
    (replace2 a b r l).head? = l.head? ∨
    ((replace2 a b r l).head? = some r ∧ l.head? = some a) := by
  match l with
  | [] => exact Or.inl rfl
  | [x] => exact Or.inl rfl
  | x :: y :: rest =>
    by_cases h : x = a ∧ y = b
    · right
      rw [replace2, if_pos h]
      exact ⟨rfl, by simp [h.1]⟩
    · left
      rw [replace2, if_neg h]
      rfl

theorem replace2_self (a b r : Char) (h1 : r ≠ a) (h2 : r ≠ b) :
    ∀ l, hasPair a b (replace2 a b r l) = false
  | [] => rfl
  | [_] => rfl
  | x :: y :: rest => by
    by_cases h : x = a ∧ y = b
    · rw [replace2, if_pos h]
      refine (hasPair_cons_false ..).mpr ⟨?_, replace2_self a b r h1 h2 rest⟩
      rintro ⟨hra, -⟩
      exact h1 hra
    · rw [replace2, if_neg h]
      refine (hasPair_cons_false ..).mpr ⟨?_, replace2_self a b r h1 h2 (y :: rest)⟩
      rintro ⟨hxa, hhd⟩
      rcases replace2_head a b r (y :: rest) with hh | ⟨hh, -⟩
      · rw [hh] at hhd
        simp only [List.head?_cons, Option.some.injEq] at hhd
        exact h ⟨hxa, hhd⟩
      · rw [hh] at hhd
        injection hhd with hrb
        exact h2 hrb

theorem replace2_pres (a b r c d : Char) (h1 : c ≠ r) (h2 : d ≠ r) :
    ∀ l, hasPair c d l = false → hasPair c d (replace2 a b r l) = false
  | [] => fun _ => rfl
  | [_] => fun _ => rfl
  | x :: y :: rest => fun h => by
    have hx := (hasPair_cons_false c d x (y :: rest)).mp h
    by_cases hp : x = a ∧ y = b
    · rw [replace2, if_pos hp]
      have hrest : hasPair c d rest = false := hasPair_tail c d y rest hx.2
      refine (hasPair_cons_false ..).mpr
        ⟨?_, replace2_pres a b r c d h1 h2 rest hrest⟩
      rintro ⟨hrc, -⟩
      exact h1 hrc.symm
    · rw [replace2, if_neg hp]
      refine (hasPair_cons_false ..).mpr
        ⟨?_, replace2_pres a b r c d h1 h2 (y :: rest) hx.2⟩
      rintro ⟨rfl, hhd⟩
      rcases replace2_head a b r (y :: rest) with hh | ⟨hh, -⟩
      · rw [hh] at hhd
        exact hx.1 ⟨rfl, hhd⟩
      · rw [hh] at hhd
        injection hhd with hrd
        exact h2 hrd.symm

theorem replace2_id (a b r : Char) : ∀ l, hasPair a b l = false → replace2 a b r l = l
  | [] => fun _ => rfl
  | [_] => fun _ => rfl
  | x :: y :: rest => fun h => by
    have hx := (hasPair_cons_false a b x (y :: rest)).mp h
    have hp : ¬(x = a ∧ y = b) := fun ⟨ha, hb⟩ => hx.1 ⟨ha, by simp [hb]⟩
    rw [replace2, if_neg hp, replace2_id a b r (y :: rest) hx.2]

theorem collapse_head (l : List Char) :
    (collapseAux false l).head? = none ∨ (collapseAux false l).head? = some ' ' ∨
    ((collapseAux false l).head? = l.head? ∧
      ∃ z zs, l = z :: zs ∧ isPySpace z = false) := by
  cases l with
  | nil => exact Or.inl rfl
  | cons c rest =>
    by_cases hc : isPySpace c = true
    · right; left
      rw [show collapseAux false (c :: rest) = ' ' :: collapseAux true rest from by
        simp [collapseAux, hc]]
      rfl
    · right; right
      rw [show collapseAux false (c :: rest) = c :: collapseAux false rest from by
        simp [collapseAux, hc]]
      exact ⟨rfl, c, rest, rfl, by simpa using hc⟩

theorem collapse_pres (c d : Char) (h1 : isPySpace c = false) (h2 : isPySpace d = false) :
    ∀ (bb : Bool) (l : List Char),
      hasPair c d l = false → hasPair c d (collapseAux bb l) = false
  | _, [] => fun _ => rfl
  | bb, x :: rest => fun h => by
    have hx := (hasPair_cons_false c d x rest).mp h
    by_cases hsp : isPySpace x = true
    · cases bb with
      | true =>
        rw [show collapseAux true (x :: rest) = collapseAux true rest from by
          simp [collapseAux, hsp]]
        exact collapse_pres c d h1 h2 true rest hx.2
      | false =>
        rw [show collapseAux false (x :: rest) = ' ' :: collapseAux true rest from by
          simp [collapseAux, hsp]]
        refine (hasPair_cons_false ..).mpr
          ⟨?_, collapse_pres c d h1 h2 true rest hx.2⟩
        rintro ⟨hc', -⟩
        rw [← hc'] at h1
        exact absurd h1 (by decide)
    · rw [show collapseAux bb (x :: rest) = x :: collapseAux false rest from by
        cases bb <;> simp [collapseAux, hsp]]
      refine (hasPair_cons_false ..).mpr
        ⟨?_, collapse_pres c d h1 h2 false rest hx.2⟩
      rintro ⟨rfl, hhd⟩
      rcases collapse_head rest with hh | hh | ⟨hh, z, zs, hrest, -⟩
      · rw [hh] at hhd
        exact Option.noConfusion hhd
      · rw [hh] at hhd
        injection hhd with hd'
        rw [← hd'] at h2
        exact absurd h2 (by decide)
      · rw [hh] at hhd
        exact hx.1 ⟨rfl, hhd⟩

theorem collapseAux_fix (l : List Char) :
    collapseAux false (collapseAux false l) = collapseAux false l ∧
    collapseAux true (collapseAux true l) = collapseAux true l := by
  induction l with
  | nil => exact ⟨rfl, rfl⟩
  | cons c rest ih =>
    by_cases hc : isPySpace c = true
    · constructor
      · rw [show collapseAux false (c :: rest) = ' ' :: collapseAux true rest from by
          simp [collapseAux, hc]]
        rw [show collapseAux false (' ' :: collapseAux true rest) =
            ' ' :: collapseAux true (collapseAux true rest) from by
          simp [collapseAux, show isPySpace ' ' = true from by decide]]
        rw [ih.2]
      · rw [show collapseAux true (c :: rest) = collapseAux true rest from by
          simp [collapseAux, hc]]
        exact ih.2
    · constructor
      · rw [show collapseAux false (c :: rest) = c :: collapseAux false rest from by
          simp [collapseAux, hc]]
        rw [show collapseAux false (c :: collapseAux false rest) =
            c :: collapseAux false (collapseAux false rest) from by simp [collapseAux, hc]]
        rw [ih.1]
      · rw [show collapseAux true (c :: rest) = c :: collapseAux false rest from by
          simp [collapseAux, hc]]
        rw [show collapseAux true (c :: collapseAux false rest) =
            c :: collapseAux false (collapseAux false rest) from by simp [collapseAux, hc]]
        rw [ih.1]

theorem collapseWS_idem (l : List Char) : collapseWS (collapseWS l) = collapseWS l :=
  (collapseAux_fix l).1

theorem collapseAux_true_allspace :
    ∀ l : List Char, l.all isPySpace = true → collapseAux true l = []
  | [], _ => rfl
  | c :: rest, h => by
    have hc : isPySpace c = true := by
      have := List.all_eq_true.mp h c (by simp)
      simpa using this
    rw [show collapseAux true (c :: rest) = collapseAux true rest from by
      simp [collapseAux, hc]]
    exact collapseAux_true_allspace rest (by
      refine List.all_eq_true.mpr fun x hx => List.all_eq_true.mp h x (by simp [hx]))

theorem collapseWS_allspace (l : List Char) (h0 : l ≠ [])
    (h : l.all isPySpace = true) : collapseWS l = [' '] := by
  cases l with
  | nil => exact absurd rfl h0
  | cons c rest =>
    have hc : isPySpace c = true := by
      have := List.all_eq_true.mp h c (by simp)
      simpa using this
    unfold collapseWS
    rw [show collapseAux false (c :: rest) = ' ' :: collapseAux true rest from by
      simp [collapseAux, hc]]
    rw [collapseAux_true_allspace rest (by
      refine List.all_eq_true.mpr fun x hx => List.all_eq_true.mp h x (by simp [hx]))]

theorem normalizeBreaks_noPairs (t : List Char) :
    hasPair '\\' 'N' (normalizeBreaks t) = false ∧
    hasPair '\\' 'n' (normalizeBreaks t) = false := by
  unfold normalizeBreaks
  exact ⟨replace2_pres '\\' 'n' ' ' '\\' 'N' (by decide) (by decide) _
      (replace2_self '\\' 'N' '\n' (by decide) (by decide) t),
    replace2_self '\\' 'n' ' ' (by decide) (by decide) _⟩

theorem normalizeBreaks_collapse_fix (t : List Char) :
    normalizeBreaks (collapseWS (normalizeBreaks t)) = collapseWS (normalizeBreaks t) := by
  obtain ⟨hN, hn⟩ := normalizeBreaks_noPairs t
  have hNc : hasPair '\\' 'N' (collapseWS (normalizeBreaks t)) = false :=
    collapse_pres _ _ (by decide) (by decide) false _ hN
  have hnc : hasPair '\\' 'n' (collapseWS (normalizeBreaks t)) = false :=
    collapse_pres _ _ (by decide) (by decide) false _ hn
  show replace2 '\\' 'n' ' ' (replace2 '\\' 'N' '\n' (collapseWS (normalizeBreaks t))) =
    collapseWS (normalizeBreaks t)
  rw [replace2_id '\\' 'N' '\n' _ hNc, replace2_id '\\' 'n' ' ' _ hnc]

theorem process_line_false (t : List Char) :
    process_subtitle_line ⟨false, false, false, false⟩ t =
      collapseWS (normalizeBreaks t) := rfl

theorem process_line_false_fix (t : List Char) :
    process_subtitle_line ⟨false, false, false, false⟩ (collapseWS (normalizeBreaks t)) =
      collapseWS (normalizeBreaks t) := by
  rw [process_line_false, normalizeBreaks_collapse_fix]
  exact collapseWS_idem _

/-! ## Lemmas about the batch sampling and the uniform cleaning pass -/

theorem collectLine_clean (m : CatMatches) (l : Line) (h : lineClean l.text = true) :
    collectLine m l = m := by
  simp only [lineClean, Bool.and_eq_true, Bool.not_eq_true'] at h
  obtain ⟨⟨⟨h1, h2⟩, h3⟩, h4⟩ := h
  simp only [collectLine, h1, h2, h3, h4]
  rfl

theorem foldl_collect_clean (doc : List Line) :
    ∀ acc, (∀ l ∈ doc, lineClean l.text = true) → doc.foldl collectLine acc = acc := by
  induction doc with
  | nil => intro acc _; rfl
  | cons l rest ih =>
    intro acc h
    rw [List.foldl_cons, collectLine_clean acc l (h l (by simp))]
    exact ih acc (fun x hx => h x (by simp [hx]))

theorem mergeCat_empty_right (m : CatMatches) : mergeCat m ⟨[], [], [], []⟩ = m := by
  cases m
  simp [mergeCat]

theorem collectBatch_clean (docs : List (List Line)) (h : docsClean docs = true) :
    collectBatch docs = ⟨[], [], [], []⟩ := by
  have h' : ∀ d ∈ docs, collect_special_texts d = ⟨[], [], [], []⟩ := by
    intro d hd
    refine foldl_collect_clean d _ ?_
    intro l hl
    have hall := List.all_eq_true.mp h d hd
    exact List.all_eq_true.mp hall l hl
  unfold collectBatch
  suffices hgen : ∀ (ds : List (List Line)) (acc : CatMatches),
      (∀ d ∈ ds, collect_special_texts d = ⟨[], [], [], []⟩) →
      ds.foldl (fun acc d => mergeCat acc (collect_special_texts d)) acc = acc by
    exact hgen docs _ h'
  intro ds
  induction ds with
  | nil => intro acc _; rfl
  | cons d rest ih =>
    intro acc hds
    rw [List.foldl_cons, hds d (by simp), mergeCat_empty_right]
    exact ih acc (fun x hx => hds x (by simp [hx]))

theorem engineFlags_clean (docs : List (List Line)) (a : Answers)
    (h : docsClean docs = true) :
    engineFlags docs a = ⟨false, false, false, false⟩ := by
  simp [engineFlags, collectBatch_clean docs h, user_confirmation]

theorem cleanDoc_false_idem (d : List Line) :
    cleanDoc ⟨false, false, false, false⟩ (cleanDoc ⟨false, false, false, false⟩ d) =
      cleanDoc ⟨false, false, false, false⟩ d := by
  have hfix : ∀ l ∈ (d.map (processLine ⟨false, false, false, false⟩)).filter
      (fun l => !l.text.isEmpty && !containsSub NETFLIX l.text),
      processLine ⟨false, false, false, false⟩ l = l := by
    intro l hl
    have hl2 := (List.mem_filter.mp hl).1
    obtain ⟨l0, hl0, rfl⟩ := List.mem_map.mp hl2
    show processLine _ ⟨process_subtitle_line _ l0.text, l0.style⟩ = _
    unfold processLine
    simp only [process_line_false]
    rw [normalizeBreaks_collapse_fix, collapseWS_idem]
  show remove_miscellaneous_events (List.filter _ (List.map _
      (remove_miscellaneous_events (List.filter _ (List.map _ d))))) = _
  unfold remove_miscellaneous_events
  rw [map_fix hfix]
  apply List.filter_eq_self.mpr
  intro x hx
  exact (List.mem_filter.mp hx).2

/-! ## Claims about the Cleaning Rule Engine -/

/-- C5 (amended): on a batch with no category matches, one engine pass
applies exactly continuation normalization plus whitespace collapsing to
each line (followed by the unconditional batch-hygiene filter), and —
provided the pass's output again has no category matches — a second engine
pass changes nothing.  (The proviso is necessary: collapsing can create new
matches, see the counterexample.) -/
theorem claim_C5 (docs : List (List Line)) (a a2 : Answers)
    (h : docsClean docs = true) :
    clean_up_japanese_subs docs a =
      docs.map (fun d =>
        remove_miscellaneous_events
          ((d.map (fun l => ⟨collapseWS (normalizeBreaks l.text), l.style⟩)).filter
            (fun l => !l.text.isEmpty && !containsSub NETFLIX l.text))) ∧
    (docsClean (clean_up_japanese_subs docs a) = true →
      clean_up_japanese_subs (clean_up_japanese_subs docs a) a2 =
        clean_up_japanese_subs docs a) := by
  have hf := engineFlags_clean docs a h
  constructor
  · unfold clean_up_japanese_subs
    rw [hf]
    rfl
  · intro h2
    have hf2 := engineFlags_clean _ a2 h2
    unfold clean_up_japanese_subs at hf2 ⊢
    rw [hf2, hf]
    apply map_fix
    intro d1 hd1
    obtain ⟨d0, hd0, rfl⟩ := List.mem_map.mp hd1
    exact cleanDoc_false_idem d0

/-- Witness for C5 (amended) on a concrete clean one-line document. -/
theorem claim_C5_witness :
    docsClean [[⟨"hello world".data, "Default"⟩]] = true ∧
    clean_up_japanese_subs
        (clean_up_japanese_subs [[⟨"hello world".data, "Default"⟩]]
          ⟨true, true, true, true⟩) ⟨true, true, true, true⟩ =
      clean_up_japanese_subs [[⟨"hello world".data, "Default"⟩]]
        ⟨true, true, true, true⟩ :=
  ⟨by decide,
    (claim_C5 [[⟨"hello world".data, "Default"⟩]] ⟨true, true, true, true⟩
      ⟨true, true, true, true⟩ (by decide)).2 (by decide)⟩

/-- Counterexample to C5 as stated: the one-line document `（\N）` has no
category match (a full-width parenthesis pair whose interior is only the
newline produced from the hard-break marker — `.` does not match a
newline), so the first pass only normalizes and collapses, yielding
`（ ）`.  That output does match the hearing-impaired pattern, so a second
engine pass (with a remove decision) deletes it: re-running the engine
changes the result. -/
theorem claim_C5_counterexample :
    docsClean [[⟨"（\\N）".data, "Default"⟩]] = true ∧
    clean_up_japanese_subs [[⟨"（\\N）".data, "Default"⟩]] ⟨true, true, true, true⟩ =
      [[⟨"（ ）".data, "Default"⟩]] ∧
    clean_up_japanese_subs [[⟨"（ ）".data, "Default"⟩]] ⟨true, true, true, true⟩ ≠
      [[⟨"（ ）".data, "Default"⟩]] := by
  refine ⟨by decide, by decide, by decide⟩

/-- C8: for every category-decision combination, the Japanese-subtitle
cleaning pass drops exactly the processed lines whose text is empty or
contains the literal `"NETFLIX"`: no such line is in the output, the output
is an order-preserving subsequence of the processed lines, and every other
processed line is retained. -/
theorem claim_C8 (flags : ClearFlags) (doc : List Line) :
    (∀ l ∈ cleanDoc flags doc, l.text ≠ [] ∧ containsSub NETFLIX l.text = false) ∧
    List.Sublist (cleanDoc flags doc) (doc.map (processLine flags)) ∧
    (∀ l ∈ doc.map (processLine flags), l.text ≠ [] →
      containsSub NETFLIX l.text = false → l ∈ cleanDoc flags doc) := by
  refine ⟨?_, ?_, ?_⟩
  · intro l hl
    unfold cleanDoc remove_miscellaneous_events at hl
    have hp := List.of_mem_filter hl
    simp only [Bool.and_eq_true, Bool.not_eq_true'] at hp
    refine ⟨?_, hp.2⟩
    intro habs
    rw [habs] at hp
    simp at hp
  · unfold cleanDoc remove_miscellaneous_events
    exact List.filter_sublist _
  · intro l hl h1 h2
    unfold cleanDoc remove_miscellaneous_events
    refine List.mem_filter.mpr ⟨hl, ?_⟩
    simp only [Bool.and_eq_true, Bool.not_eq_true', h2, and_true]
    cases hx : l.text with
    | nil => exact absurd hx h1
    | cons c cs => simp

/-- Witness for C8: a clean line is retained while a NETFLIX line is
dropped from the concrete two-line document. -/
theorem claim_C8_witness :
    (⟨"abc".data, "D"⟩ : Line) ∈
      cleanDoc ⟨true, true, true, true⟩
        [⟨"abc".data, "D"⟩, ⟨"NETFLIX".data, "D"⟩] :=
  (claim_C8 ⟨true, true, true, true⟩
      [⟨"abc".data, "D"⟩, ⟨"NETFLIX".data, "D"⟩]).2.2
    ⟨"abc".data, "D"⟩ (by decide) (by decide) (by decide)

/-- C9: a line whose text is nonempty but all-whitespace after the
category-removal passes collapses to the one-character text `" "`, which
is truthy, so the line is retained by the batch-hygiene filter; among
non-watermark lines, the filter drops exactly those whose processed text is
the empty string. -/
theorem claim_C9 (flags : ClearFlags) (l : Line) (doc : List Line)
    (hmem : l ∈ doc)
    (hne : applyRemovals flags l.text ≠ [])
    (hws : (applyRemovals flags l.text).all isPySpace = true) :
    process_subtitle_line flags l.text = [' '] ∧
    processLine flags l ∈ cleanDoc flags doc ∧
    (∀ l' ∈ doc.map (processLine flags), containsSub NETFLIX l'.text = false →
      (l' ∈ cleanDoc flags doc ↔ l'.text ≠ [])) := by
  have hproc : process_subtitle_line flags l.text = [' '] := by
    unfold process_subtitle_line
    exact collapseWS_allspace _ hne hws
  refine ⟨hproc, ?_, ?_⟩
  · unfold cleanDoc remove_miscellaneous_events
    refine List.mem_filter.mpr ⟨List.mem_map_of_mem _ hmem, ?_⟩
    show (!(processLine flags l).text.isEmpty &&
      !containsSub NETFLIX (processLine flags l).text) = true
    have ht : (processLine flags l).text = [' '] := hproc
    rw [ht]
    decide
  · intro l' hl' hnf
    constructor
    · intro hin
      unfold cleanDoc remove_miscellaneous_events at hin
      have hp := List.of_mem_filter hin
      simp only [Bool.and_eq_true, Bool.not_eq_true'] at hp
      intro habs
      rw [habs] at hp
      simp at hp
    · intro hne'
      unfold cleanDoc remove_miscellaneous_events
      refine List.mem_filter.mpr ⟨hl', ?_⟩
      simp only [Bool.and_eq_true, Bool.not_eq_true', hnf, and_true]
      cases hx : l'.text with
      | nil => exact absurd hx hne'
      | cons c cs => simp

/-- Witness for C9: a line holding only symbols and spaces is kept as
`" "` when the symbol category is removed. -/
theorem claim_C9_witness :
    process_subtitle_line ⟨false, true, false, false⟩ "♪ ♪ ♪".data = [' '] ∧
    processLine ⟨false, true, false, false⟩ ⟨"♪ ♪ ♪".data, "D"⟩ ∈
      cleanDoc ⟨false, true, false, false⟩ [⟨"♪ ♪ ♪".data, "D"⟩] := by
  have h := claim_C9 ⟨false, true, false, false⟩ ⟨"♪ ♪ ♪".data, "D"⟩
    [⟨"♪ ♪ ♪".data, "D"⟩] (by decide) (by decide) (by decide)
  exact ⟨h.1, h.2.1⟩

/-! ## Lemmas about the Style Filter -/

theorem insertByCountDesc_mem (p q : String × Nat) (l : List (String × Nat)) :
    q ∈ insertByCountDesc p l ↔ q = p ∨ q ∈ l := by
  induction l with
  | nil => simp [insertByCountDesc]
  | cons r rest ih =>
    unfold insertByCountDesc
    by_cases hc : p.2 < r.2
    · simp only [if_pos hc, List.mem_cons, ih]
      tauto
    · rw [if_neg hc]
      simp

theorem sortStylesDesc_mem (q : String × Nat) (l : List (String × Nat)) :
    q ∈ sortStylesDesc l ↔ q ∈ l := by
  induction l with
  | nil => simp [sortStylesDesc]
  | cons p rest ih =>
    show q ∈ insertByCountDesc p (sortStylesDesc rest) ↔ _
    rw [insertByCountDesc_mem, ih]
    simp

theorem bumpStyle_keys (counts : List (String × Nat)) (st : String)
    (h : ∀ p ∈ counts, containsIgnoreTag p.1 = false)
    (hst : containsIgnoreTag st = false) :
    ∀ p ∈ bumpStyle counts st, containsIgnoreTag p.1 = false := by
  induction counts with
  | nil =>
    intro p hp
    simp only [bumpStyle, List.mem_singleton] at hp
    rw [hp]
    exact hst
  | cons q rest ih =>
    intro p hp
    unfold bumpStyle at hp
    by_cases hq : q.1 = st
    · rw [if_pos hq] at hp
      rcases List.mem_cons.mp hp with hp | hp
      · rw [hp]
        exact h q (by simp)
      · exact h p (by simp [hp])
    · rw [if_neg hq] at hp
      rcases List.mem_cons.mp hp with hp | hp
      · rw [hp]
        exact h q (by simp)
      · exact ih (fun r hr => h r (by simp [hr])) p hp

theorem analyzeLine_keys (acc : List (String × Nat) × List (String × List (List Char)))
    (l : Line) (h : ∀ p ∈ acc.1, containsIgnoreTag p.1 = false) :
    ∀ p ∈ (analyzeLine acc l).1, containsIgnoreTag p.1 = false := by
  unfold analyzeLine
  by_cases hig : containsIgnoreTag l.style = true
  · rw [if_pos hig]
    exact h
  · rw [if_neg hig]
    exact bumpStyle_keys acc.1 l.style h (by simpa using hig)

theorem foldl_analyze_keys (doc : List Line) :
    ∀ acc, (∀ p ∈ acc.1, containsIgnoreTag p.1 = false) →
      ∀ p ∈ (doc.foldl analyzeLine acc).1, containsIgnoreTag p.1 = false := by
  induction doc with
  | nil => intro acc h; exact h
  | cons l rest ih =>
    intro acc h
    rw [List.foldl_cons]
    exact ih _ (analyzeLine_keys acc l h)

theorem batch_fold_keys (batch : List (List Line)) :
    ∀ acc : List (String × Nat) × List (String × List (List Char)),
      (∀ p ∈ acc.1, containsIgnoreTag p.1 = false) →
      ∀ p ∈ (batch.foldl (fun acc doc => doc.foldl analyzeLine acc) acc).1,
        containsIgnoreTag p.1 = false := by
  induction batch with
  | nil => intro acc h; exact h
  | cons doc rest ih =>
    intro acc h
    rw [List.foldl_cons]
    exact ih _ (foldl_analyze_keys doc acc h)

theorem analyze_batch_keys (batch : List (List Line)) :
    ∀ p ∈ (analyze_subtitle_styles batch).1, containsIgnoreTag p.1 = false := by
  intro p hp
  unfold analyze_subtitle_styles at hp
  rw [sortStylesDesc_mem] at hp
  exact batch_fold_keys batch ([], []) (by simp) p hp

theorem get_styles_to_keep_subset (ranked : List (String × Nat))
    (ex : List (String × List (List Char))) (input : List Char) (kept : List String)
    (h : get_styles_to_keep ranked ex input = .ok kept) :
    ∀ s ∈ kept, ∃ p ∈ ranked, p.1 = s := by
  simp only [get_styles_to_keep] at h
  split at h
  · simp only [Except.ok.injEq] at h
    subst h
    intro s hs
    obtain ⟨p, hp, rfl⟩ := List.mem_map.mp hs
    exact ⟨p, hp, rfl⟩
  · split at h
    · exact absurd h (by simp)
    · rename_i idxs hidx
      intro s hs
      obtain ⟨i, hi, hfi⟩ := mapE_ok_mem _ _ _ h s hs
      cases hg : pyGet ranked i with
      | none => rw [hg] at hfi; exact absurd hfi (by simp)
      | some p =>
        rw [hg] at hfi
        simp only [Except.ok.injEq] at hfi
        exact ⟨p, pyGet_mem _ _ _ hg, hfi⟩

/-! ## Claims about the Style Filter -/

/-- C4: a line whose style tag contains an ignore-family substring is never
in the ranked style list, and — for every keep-decision input on which the
selection succeeds, empty or explicit — never in the filtered output of the
style filter. -/
theorem claim_C4 (batch : List (List Line)) (input : List Char) (kept : List String)
    (h : get_styles_to_keep (analyze_subtitle_styles batch).1
        (analyze_subtitle_styles batch).2 input = .ok kept) :
    (∀ p ∈ (analyze_subtitle_styles batch).1, containsIgnoreTag p.1 = false) ∧
    (∀ (doc : List Line), ∀ l ∈ filterByStyles kept doc,
      containsIgnoreTag l.style = false) := by
  refine ⟨analyze_batch_keys batch, ?_⟩
  intro doc l hl
  unfold filterByStyles remove_miscellaneous_events at hl
  have hmem := (List.mem_filter.mp hl).2
  have hsty : l.style ∈ kept := by
    simpa using hmem
  obtain ⟨p, hpr, hps⟩ := get_styles_to_keep_subset _ _ _ _ h l.style hsty
  have hig := analyze_batch_keys batch p hpr
  rw [hps] at hig
  exact hig

/-- Witness for C4: in a concrete batch with a `"Signs - Main"` line and
empty keep input, the full selection succeeds and the ranked list carries
no ignore-family style. -/
theorem claim_C4_witness :
    containsIgnoreTag "Signs - Main" = true ∧
    (∀ p ∈ (analyze_subtitle_styles
        [[⟨"hi".data, "Default"⟩, ⟨"sign".data, "Signs - Main"⟩]]).1,
      containsIgnoreTag p.1 = false) :=
  ⟨by decide,
    (claim_C4 [[⟨"hi".data, "Default"⟩, ⟨"sign".data, "Signs - Main"⟩]]
      "".data ["Default"] (by decide)).1⟩

/-- C7: empty (stripped) keep input makes the keep-set exactly the full
ranked list, and the filtered output then keeps precisely the lines whose
style is in the ranked list. -/
theorem claim_C7 (ranked : List (String × Nat))
    (ex : List (String × List (List Char))) (input : List Char)
    (hempty : pyStrip input = []) :
    get_styles_to_keep ranked ex input = .ok (ranked.map Prod.fst) ∧
    ∀ (doc : List Line) (l : Line),
      l ∈ filterByStyles (ranked.map Prod.fst) doc ↔
        (l ∈ doc ∧ l.style ∈ ranked.map Prod.fst) := by
  constructor
  · unfold get_styles_to_keep
    rw [hempty]
    rfl
  · intro doc l
    unfold filterByStyles remove_miscellaneous_events
    rw [List.mem_filter]
    constructor
    · rintro ⟨h1, h2⟩
      exact ⟨h1, by simpa using h2⟩
    · rintro ⟨h1, h2⟩
      exact ⟨h1, by simpa using h2⟩

/-- Witness for C7 at a whitespace-only input over a concrete ranked list
and document. -/
theorem claim_C7_witness :
    get_styles_to_keep [("Default", 2), ("Alt", 1)] [] "  ".data =
      .ok ["Default", "Alt"] ∧
    ((⟨"x".data, "Default"⟩ : Line) ∈
        filterByStyles ["Default", "Alt"] [⟨"x".data, "Default"⟩, ⟨"y".data, "Signs"⟩] ↔
      ((⟨"x".data, "Default"⟩ : Line) ∈
          ([⟨"x".data, "Default"⟩, ⟨"y".data, "Signs"⟩] : List Line) ∧
        "Default" ∈ [("Default", 2), ("Alt", 1)].map Prod.fst)) := by
  have h := claim_C7 [("Default", 2), ("Alt", 1)] [] "  ".data (by decide)
  exact ⟨h.1, h.2 [⟨"x".data, "Default"⟩, ⟨"y".data, "Signs"⟩] ⟨"x".data, "Default"⟩⟩

/-- C10: a non-empty keep input is split on whitespace, each token parsed
by `int` and used directly as a Python index into the ranked list: an index
in `[-n, n)` succeeds (negative indices counting from the end of the ranked
list), while an out-of-range index raises an unhandled `IndexError` and a
non-integer token an unhandled `ValueError` — not a reported configuration
error. -/
theorem claim_C10 (ranked : List (String × Nat))
    (ex : List (String × List (List Char))) (t : List Char)
    (hstrip : pyStrip t = t) (hne : t ≠ []) (hsplit : pySplit t = [t]) :
    (∀ (i : Int) (p : String × Nat), pyInt t = some i → pyGet ranked i = some p →
      get_styles_to_keep ranked ex t = .ok [p.1]) ∧
    (∀ i : Int, pyInt t = some i → pyGet ranked i = none →
      get_styles_to_keep ranked ex t = .error .indexError) ∧
    (pyInt t = none →
      get_styles_to_keep ranked ex t = .error (.valueError "invalid literal for int")) ∧
    (∀ i : Int, -(ranked.length : Int) ≤ i → i < 0 →
      pyGet ranked i = ranked[(ranked.length - (-i).toNat)]?) := by
  have hui : t.isEmpty = false := by
    cases t with
    | nil => exact absurd rfl hne
    | cons c cs => rfl
  refine ⟨?_, ?_, ?_, ?_⟩
  · intro i p hparse hget
    unfold get_styles_to_keep
    rw [hstrip]
    simp only [hsplit, mapE, hparse, hget, hui]
    rfl
  · intro i hparse hget
    unfold get_styles_to_keep
    rw [hstrip]
    simp only [hsplit, mapE, hparse, hget, hui]
    rfl
  · intro hparse
    unfold get_styles_to_keep
    rw [hstrip]
    simp only [hsplit, mapE, hparse, hui]
    rfl
  · intro i h1 h2
    unfold pyGet
    rw [if_neg (by omega : ¬(0 : Int) ≤ i), if_pos h1]
    congr 1
    omega

/-- Witness for C10: token `-1` selects the last ranked style. -/
theorem claim_C10_witness :
    get_styles_to_keep [("A", 2), ("B", 1)] [] "-1".data = .ok ["B"] :=
  (claim_C10 [("A", 2), ("B", 1)] [] "-1".data (by decide) (by decide) (by decide)).1
    (-1) ("B", 1) (by decide) (by decide)

end ASR
